import Mathlib

/-!
Verification of the subcluster generation / scoring / selection core of the
faq-generation repository (modules `_3_select_tickets/cluster_helper.py`,
`_3_select_tickets/generate_subclusters.py`, `_3_select_tickets/select_subclusters.py`).

Modelling conventions:
* Embedding vectors are lists of rationals (`List ℚ`), idealizing the
  floating-point arithmetic of the source as exact arithmetic.
* Every similarity computed by the source is a cosine similarity taken after
  the source has unit-normalized its inputs (`sklearn.preprocessing.normalize`
  followed by `sklearn.metrics.pairwise.cosine_similarity`).  In exact
  arithmetic the cosine similarity of two unit vectors is their dot product,
  so the embedding works with post-normalization vectors and uses the plain
  dot product; theorems that need unit inputs carry the hypothesis
  `dot v v = 1`.  Orderings by similarity are unaffected, because
  normalization rescales every similarity of a fixed query by the same
  positive factor.
* `numpy.argsort` (ascending, default quicksort kind, which numpy does not
  document as stable on larger arrays) is modelled by the deterministic
  `List.insertionSort`, and the source's `[::-1]` by `List.reverse`.  The
  model's trace coincides with numpy's whenever the similarity values are
  pairwise distinct (any correct sort then produces the same index order)
  and on arrays small enough for numpy's insertion-sort path; no theorem
  asserts a universal order among equal similarity values.  Python's
  `sorted(..., reverse=True)` and `list.sort`, which ARE documented stable,
  are modelled by `List.insertionSort` with a greater-or-equal comparison.
* The KMeans clusterer and the silhouette scorer of scikit-learn are external
  collaborators; code paths that consume their output are modelled as
  functions parametrized by oracles (`labelsOf`, `silhouette`), exactly as
  `compute_best_k` consumes them.
-/

namespace Faq

/-- Dot product of two rational vectors (cosine similarity of unit vectors);
truncates to the shorter length, as the source always pairs equal-length rows. -/
def dot (u v : List ℚ) : ℚ := (List.zipWith (fun a b => a * b) u v).sum

/-- Comparison of two member indices by their similarity value, ascending;
this is the sort key of `similarities.argsort()` in
`cluster_helper.get_top_entries_by_centroid`. -/
def simLe (sims : List ℚ) (i j : ℕ) : Prop := sims.getD i 0 ≤ sims.getD j 0

instance (sims : List ℚ) : DecidableRel (simLe sims) :=
  fun i j => inferInstanceAs (Decidable (sims.getD i 0 ≤ sims.getD j 0))

instance (sims : List ℚ) : IsTotal ℕ (simLe sims) :=
  ⟨fun _ _ => le_total _ _⟩

instance (sims : List ℚ) : IsTrans ℕ (simLe sims) :=
  ⟨fun _ _ _ => le_trans⟩

/-- Deterministic model of `similarities.argsort()` (ascending).  numpy's
default quicksort kind is not documented stable on larger arrays; this
model's output agrees with numpy whenever all similarity values are distinct,
and additionally traces numpy's stable insertion-sort path exactly on small
arrays.  Theorems about tie order are therefore stated only at concrete
small inputs. -/
def argsortAsc (sims : List ℚ) : List ℕ :=
  List.insertionSort (simLe sims) (List.range sims.length)

/-- The source's `similarities.argsort()[::-1]`: ascending argsort, reversed. -/
def argsortDesc (sims : List ℚ) : List ℕ :=
  (argsortAsc sims).reverse

/-- Embedding of `cluster_helper.get_top_entries_by_centroid`.  A data frame
row is a pair of the issue summary and the optional resolution; `dropna` is
`List.filterMap`.  Similarities to the centroid are dot products (see the
unit-vector modelling note above). -/
def get_top_entries_by_centroid (embeddings : List (List ℚ)) (centroid : List ℚ)
    (df : List (String × Option String)) : List String × List String :=
  let similarities := embeddings.map (fun e => dot e centroid)
  let top_indices := argsortDesc similarities
  let top_summaries := top_indices.map (fun i => (df.getD i ("", none)).1)
  let top_resolutions := top_indices.filterMap (fun i => (df.getD i ("", none)).2)
  (top_summaries, top_resolutions)

-- -------------------- Cohesion and separation (cluster_helper.py) --------------------

/-- Sum of the full cross cosine-similarity matrix between two groups of
(unit) vectors: `np.sum(cosine_similarity(a, b))` in the source. -/
def crossSimSum (a b : List (List ℚ)) : ℚ :=
  (a.map (fun u => (b.map (fun w => dot u w)).sum)).sum

/-- Embedding of `cluster_helper.compute_separation`: one minus the mean
cross cosine similarity between the two groups. -/
def compute_separation (a b : List (List ℚ)) : ℚ :=
  1 - crossSimSum a b / ((a.length : ℚ) * (b.length : ℚ))

/-- Mean of a list of rationals: `np.mean` in the source. -/
def npMean (l : List ℚ) : ℚ := l.sum / (l.length : ℚ)

/-- The separation a subcluster receives inside `generate_subclusters`:
its `compute_separation` score against every sibling (`sub_id` skipped),
averaged; `0.0` when there are no siblings.  `embs` lists the member
embeddings of each subcluster of the parent group, indexed by subcluster id. -/
def subclusterSeparation (embs : List (List (List ℚ))) (sub_id : ℕ) : ℚ :=
  let separations := ((List.range embs.length).filter (fun j => j ≠ sub_id)).map
    (fun j => compute_separation (embs.getD sub_id []) (embs.getD j []))
  if separations.length = 0 then 0 else npMean separations

/-- Modelled from the spec: the alternative the spec explicitly rules out
for the separation of a subcluster against its parent group, namely one
single pooled mean over all cross-group pairs at once. -/
def pooledSeparationSpec (embs : List (List (List ℚ))) (sub_id : ℕ) : ℚ :=
  let a := embs.getD sub_id []
  let sibs := ((List.range embs.length).filter (fun j => j ≠ sub_id)).map
    (fun j => embs.getD j [])
  1 - (sibs.map (fun b => crossSimSum a b)).sum /
    ((a.length : ℚ) * (sibs.map (fun b => (b.length : ℚ))).sum)

/-- Sum of all entries of the pairwise cosine-similarity matrix of one
group: `np.sum(cosine_similarity(embeddings))` in `compute_cohesion`. -/
def simMatrixSum (vs : List (List ℚ)) : ℚ := crossSimSum vs vs

/-- Trace of the pairwise cosine-similarity matrix:
`np.trace(sim_matrix)` in `compute_cohesion`. -/
def simMatrixTrace (vs : List (List ℚ)) : ℚ := (vs.map (fun v => dot v v)).sum

/-- Embedding of `cluster_helper.compute_cohesion`: total pairwise similarity
minus the self similarities, divided by the number of ordered distinct pairs. -/
def compute_cohesion (vs : List (List ℚ)) : ℚ :=
  (simMatrixSum vs - simMatrixTrace vs) / ((vs.length : ℚ) * ((vs.length : ℚ) - 1))

-- -------------------- Optimal k selection (cluster_helper.compute_best_k) --------------------

/-- Class sizes of a labelling, one count per distinct label value:
`np.unique(labels, return_counts=True)` in the source. -/
def countsOf (labels : List ℕ) : List ℕ :=
  labels.dedup.map (fun v => labels.count v)

/-- Largest class size: `counts.max()` in the source. -/
def maxCount (counts : List ℕ) : ℕ := counts.foldr max 0

/-- The rejection test of `compute_best_k` for candidate `k`, as the source
computes it: some class has fewer than 5 members, or the largest class holds
more than 85 percent of `total`. -/
def violatesB (labelsOf : ℕ → List ℕ) (total : ℕ) (k : ℕ) : Bool :=
  let counts := countsOf (labelsOf k)
  counts.any (fun c => c < 5) ||
    decide ((85 : ℚ) / 100 < (maxCount counts : ℚ) / (total : ℚ))

/-- The `candidate_scores` list of `compute_best_k`: surviving candidates
`k ∈ {2,3,4}` paired with their silhouette score.  The KMeans labelling and
the silhouette scorer are the scikit-learn collaborators, passed as oracles. -/
def kCandidates (labelsOf : ℕ → List ℕ) (silhouette : ℕ → ℚ) (total : ℕ) :
    List (ℕ × ℚ) :=
  [2, 3, 4].filterMap (fun k =>
    if violatesB labelsOf total k then none else some (k, silhouette k))

/-- Comparison used to model Python's stable
`candidate_scores.sort(key=lambda x: -x[1])`: earlier iff score not smaller. -/
def scoreGe (a b : ℕ × ℚ) : Prop := b.2 ≤ a.2

instance : DecidableRel scoreGe :=
  fun a b => inferInstanceAs (Decidable (b.2 ≤ a.2))

instance : IsTotal (ℕ × ℚ) scoreGe := ⟨fun a b => le_total b.2 a.2⟩

instance : IsTrans (ℕ × ℚ) scoreGe := ⟨fun _ _ _ h h' => le_trans h' h⟩

/-- Embedding of `cluster_helper.compute_best_k`: keep the candidates that
pass the balance filter, sort them by silhouette score descending (stable),
return the best one's `k`, or the sentinel `1` when none survives. -/
def compute_best_k (labelsOf : ℕ → List ℕ) (silhouette : ℕ → ℚ) (total : ℕ) : ℕ :=
  match List.insertionSort scoreGe (kCandidates labelsOf silhouette total) with
  | [] => 1
  | c :: _ => c.1

-- -------------------- Subcluster records and global selection --------------------

/-- The subcluster record appended to `global_subcluster_stats` in
`generate_subclusters` and later enriched by `compute_ranked_scores`.
The fields `normalized_size` and `score` are absent until
`compute_ranked_scores` assigns them; the embedding carries them as `0`
placeholders, matching the `s.get("normalized_size", 0)` read in the filter. -/
structure Subcluster where
  cluster : ℕ
  subcluster_id : ℕ
  summaries : List String
  resolutions : List String
  size : ℚ
  cohesion : ℚ
  separation : ℚ
  normalized_size : ℚ
  score : ℚ
deriving DecidableEq

instance : Inhabited Subcluster := ⟨⟨0, 0, [], [], 0, 0, 0, 0, 0⟩⟩

/-- Record construction at the end of the second pass of
`generate_subclusters`: the stored summaries are
`sub_df['issue_summary'].tolist()` and the stored resolutions are
`sub_df['resolution'].dropna().tolist()`, both in the original row order of
`sub_df`; the centroid-ranked lists returned by
`get_top_entries_by_centroid` are not the ones stored. -/
def accumulatorRecord (cluster sub_id : ℕ) (sub_df : List (String × Option String))
    (size cohesion separation : ℚ) : Subcluster :=
  { cluster := cluster
    subcluster_id := sub_id
    summaries := sub_df.map (fun p => p.1)
    resolutions := sub_df.filterMap (fun p => p.2)
    size := size
    cohesion := cohesion
    separation := separation
    normalized_size := 0
    score := 0 }

/-- Smallest element of a list of rationals (`0` for the empty list). -/
def listMin : List ℚ → ℚ
  | [] => 0
  | x :: t => t.foldl min x

/-- Largest element of a list of rationals (`0` for the empty list). -/
def listMax : List ℚ → ℚ
  | [] => 0
  | x :: t => t.foldl max x

/-- Embedding of `sklearn.preprocessing.MinMaxScaler().fit_transform` on a
single feature: each value maps to `(v - min) / (max - min)`; when the data
range is zero the scaler divides by `1` instead (its documented handling of
zero ranges), sending every value to `0`. -/
def minMaxNormalize (xs : List ℚ) : List ℚ :=
  xs.map (fun v =>
    (v - listMin xs) / (if listMax xs = listMin xs then 1 else listMax xs - listMin xs))

/-- Embedding of `cluster_helper.compute_ranked_scores`: min-max normalize
the sizes over the whole accumulator, then give every record its
`normalized_size` and its weighted composite `score`; cohesion and
separation enter raw. -/
def compute_ranked_scores (subs : List Subcluster) (sw cw pw : ℚ) : List Subcluster :=
  let ns := minMaxNormalize (subs.map (fun s => s.size))
  List.zipWith
    (fun s n =>
      { s with normalized_size := n, score := sw * n + cw * s.cohesion + pw * s.separation })
    subs ns

/-- Configuration constants of `select_subclusters.py`. -/
def MIN_SIZE : ℚ := 5 / 100

/-- Upper size bound of `select_subclusters.py`. -/
def MAX_SIZE : ℚ := 80 / 100

/-- Floating-point guard band of `select_subclusters.py`. -/
def EPSILON : ℚ := 1 / 1000

/-- Output cap of `select_subclusters.py`. -/
def NUM_FAQs : ℕ := 20

/-- The size filter of `generate_subclusters.select_top_subclusters`. -/
def sizeFilter (s : Subcluster) : Bool :=
  decide (MIN_SIZE + EPSILON < s.normalized_size) &&
    decide (s.normalized_size < MAX_SIZE - EPSILON)

/-- The `filtered` list of `select_top_subclusters`: the accumulator scored
with the default weights `0.4, 1.2, 0.2`, then size-filtered. -/
def filteredSubclusters (subs : List Subcluster) : List Subcluster :=
  (compute_ranked_scores subs (4/10) (12/10) (2/10)).filter sizeFilter

/-- Comparison modelling Python's stable
`sorted(filtered, key=lambda x: x["score"], reverse=True)`. -/
def subGe (a b : Subcluster) : Prop := b.score ≤ a.score

instance : DecidableRel subGe :=
  fun a b => inferInstanceAs (Decidable (b.score ≤ a.score))

instance : IsTotal Subcluster subGe := ⟨fun a b => le_total b.score a.score⟩

instance : IsTrans Subcluster subGe := ⟨fun _ _ _ h h' => le_trans h' h⟩

/-- The `ranked` list of `select_top_subclusters`: survivors sorted by
composite score, descending, stable. -/
def rankedSubclusters (subs : List Subcluster) : List Subcluster :=
  List.insertionSort subGe (filteredSubclusters subs)

/-- Embedding of `generate_subclusters.select_top_subclusters`: score,
filter, sort, and keep the first `NUM_FAQs` records. -/
def select_top_subclusters (subs : List Subcluster) : List Subcluster :=
  (rankedSubclusters subs).take NUM_FAQs

/-- The subcluster sizes produced by the first pass of
`generate_subclusters`: for each `sub_id` below `k`, the number of rows whose
KMeans label equals `sub_id` (`len(cluster_df[labels == sub_id])`). -/
def subclusterSizes (labels : List ℕ) (k : ℕ) : List ℕ :=
  (List.range k).map (fun sub_id => (labels.filter (fun l => l == sub_id)).length)

-- -------------------- Generic lemmas --------------------

lemma filter_orderedInsert {α : Type} (r : α → α → Prop) [DecidableRel r]
    (p : α → Bool) (a : α) (l : List α)
    (h : p a = true → ∀ b ∈ l, p b = true → r a b) :
    (List.orderedInsert r a l).filter p =
      if p a then a :: l.filter p else l.filter p := by
  induction l with
  | nil => cases hpa : p a <;> simp [List.orderedInsert, hpa]
  | cons b t ih =>
    by_cases hr : r a b
    · cases hpa : p a <;> simp [List.orderedInsert, if_pos hr, List.filter_cons, hpa]
    · have hstep : List.orderedInsert r a (b :: t) = b :: List.orderedInsert r a t := by
        simp [List.orderedInsert, if_neg hr]
      have ih' := ih (fun hpa c hc hpc => h hpa c (List.mem_cons_of_mem _ hc) hpc)
      rw [hstep]
      cases hpb : p b with
      | true =>
        have hpa : p a = false := by
          cases hpa : p a
          · rfl
          · exact absurd (h hpa b (List.mem_cons_self _ _) hpb) hr
        simp [List.filter_cons, hpb, hpa, ih']
      | false =>
        cases hpa : p a <;> simp [List.filter_cons, hpb, hpa, ih']

lemma filter_insertionSort {α : Type} (r : α → α → Prop) [DecidableRel r]
    (p : α → Bool) (l : List α)
    (h : ∀ a ∈ l, ∀ b ∈ l, p a = true → p b = true → r a b) :
    (List.insertionSort r l).filter p = l.filter p := by
  induction l with
  | nil => simp
  | cons x t ih =>
    have hcond : p x = true → ∀ b ∈ List.insertionSort r t, p b = true → r x b := by
      intro hpx b hb hpb
      exact h x (List.mem_cons_self _ _) b
        (List.mem_cons_of_mem _ ((List.mem_insertionSort r).mp hb)) hpx hpb
    have ih' := ih (fun a ha b hb hpa hpb =>
      h a (List.mem_cons_of_mem _ ha) b (List.mem_cons_of_mem _ hb) hpa hpb)
    rw [List.insertionSort, filter_orderedInsert r p x _ hcond, ih']
    cases hpx : p x <;> simp [List.filter_cons, hpx]

lemma list_range_map_sum {M : Type} [AddCommMonoid M] (n : ℕ) (f : ℕ → M) :
    ((List.range n).map f).sum = ∑ i in Finset.range n, f i := by
  induction n with
  | zero => simp
  | succ m ih =>
    rw [List.range_succ, List.map_append, List.sum_append, Finset.sum_range_succ, ih]
    simp

lemma list_sum_getD (l : List ℚ) :
    l.sum = ∑ i in Finset.range l.length, l.getD i 0 := by
  induction l with
  | nil => simp
  | cons x t ih =>
    rw [List.sum_cons, ih, List.length_cons, Finset.sum_range_succ']
    simp [add_comm]

lemma dot_eq_sum (u v : List ℚ) :
    dot u v = ∑ i in Finset.range (min u.length v.length),
      u.getD i 0 * v.getD i 0 := by
  rw [dot, list_sum_getD, List.length_zipWith]
  refine Finset.sum_congr rfl (fun i hi => ?_)
  rw [Finset.mem_range] at hi
  have h1 : i < (List.zipWith (fun a b => a * b) u v).length := by
    rw [List.length_zipWith]; exact hi
  rw [List.getD_eq_getElem _ _ h1, List.getElem_zipWith,
    List.getD_eq_getElem _ _ (lt_of_lt_of_le hi (min_le_left _ _)),
    List.getD_eq_getElem _ _ (lt_of_lt_of_le hi (min_le_right _ _))]

lemma dot_self_eq_sum_sq (u : List ℚ) :
    dot u u = ∑ i in Finset.range u.length, u.getD i 0 ^ 2 := by
  rw [dot_eq_sum, min_self]
  exact Finset.sum_congr rfl (fun i _ => (sq (u.getD i 0)).symm ▸ (pow_two _).symm)

lemma dot_self_nonneg (u : List ℚ) : 0 ≤ dot u u := by
  rw [dot_self_eq_sum_sq]
  exact Finset.sum_nonneg (fun i _ => sq_nonneg _)

lemma dot_cauchy_schwarz (u v : List ℚ) : dot u v ^ 2 ≤ dot u u * dot v v := by
  rw [dot_eq_sum u v]
  refine le_trans
    (Finset.sum_mul_sq_le_sq_mul_sq (Finset.range (min u.length v.length))
      (fun i => u.getD i 0) (fun i => v.getD i 0)) ?_
  have hu : ∑ i in Finset.range (min u.length v.length), u.getD i 0 ^ 2 ≤ dot u u := by
    rw [dot_self_eq_sum_sq]
    exact Finset.sum_le_sum_of_subset_of_nonneg
      (Finset.range_subset.mpr (min_le_left _ _)) (fun i _ _ => sq_nonneg _)
  have hv : ∑ i in Finset.range (min u.length v.length), v.getD i 0 ^ 2 ≤ dot v v := by
    rw [dot_self_eq_sum_sq]
    exact Finset.sum_le_sum_of_subset_of_nonneg
      (Finset.range_subset.mpr (min_le_right _ _)) (fun i _ _ => sq_nonneg _)
  exact mul_le_mul hu hv (Finset.sum_nonneg (fun i _ => sq_nonneg _)) (dot_self_nonneg u)

lemma abs_dot_le_one {u v : List ℚ} (hu : dot u u = 1) (hv : dot v v = 1) :
    |dot u v| ≤ 1 := by
  have h := dot_cauchy_schwarz u v
  rw [hu, hv, mul_one] at h
  exact (sq_le_one_iff_abs_le_one _).mp h

lemma foldl_min_all_eq (c : ℚ) (t : List ℚ) :
    ∀ acc : ℚ, (∀ v ∈ t, v = c) →
      t.foldl min acc = acc ∨ t.foldl min acc = min acc c := by
  induction t with
  | nil => intro acc _; left; rfl
  | cons v t ih =>
    intro acc h
    have hv : v = c := h v (List.mem_cons_self _ _)
    have ht : ∀ w ∈ t, w = c := fun w hw => h w (List.mem_cons_of_mem _ hw)
    rcases ih (min acc v) ht with h1 | h1
    · right; rw [List.foldl_cons, h1, hv]
    · right; rw [List.foldl_cons, h1, hv, min_assoc, min_self]

lemma foldl_max_all_eq (c : ℚ) (t : List ℚ) :
    ∀ acc : ℚ, (∀ v ∈ t, v = c) →
      t.foldl max acc = acc ∨ t.foldl max acc = max acc c := by
  induction t with
  | nil => intro acc _; left; rfl
  | cons v t ih =>
    intro acc h
    have hv : v = c := h v (List.mem_cons_self _ _)
    have ht : ∀ w ∈ t, w = c := fun w hw => h w (List.mem_cons_of_mem _ hw)
    rcases ih (max acc v) ht with h1 | h1
    · right; rw [List.foldl_cons, h1, hv]
    · right; rw [List.foldl_cons, h1, hv, max_assoc, max_self]

lemma listMin_const {c : ℚ} {l : List ℚ} (hne : l ≠ []) (h : ∀ v ∈ l, v = c) :
    listMin l = c := by
  cases l with
  | nil => exact absurd rfl hne
  | cons x t =>
    have hx : x = c := h x (List.mem_cons_self _ _)
    have ht : ∀ w ∈ t, w = c := fun w hw => h w (List.mem_cons_of_mem _ hw)
    rcases foldl_min_all_eq c t x ht with h1 | h1
    · rw [listMin, h1, hx]
    · rw [listMin, h1, hx, min_self]

lemma listMax_const {c : ℚ} {l : List ℚ} (hne : l ≠ []) (h : ∀ v ∈ l, v = c) :
    listMax l = c := by
  cases l with
  | nil => exact absurd rfl hne
  | cons x t =>
    have hx : x = c := h x (List.mem_cons_self _ _)
    have ht : ∀ w ∈ t, w = c := fun w hw => h w (List.mem_cons_of_mem _ hw)
    rcases foldl_max_all_eq c t x ht with h1 | h1
    · rw [listMax, h1, hx]
    · rw [listMax, h1, hx, max_self]

lemma minMaxNormalize_length (xs : List ℚ) : (minMaxNormalize xs).length = xs.length := by
  rw [minMaxNormalize, List.length_map]

lemma compute_ranked_scores_length (subs : List Subcluster) (sw cw pw : ℚ) :
    (compute_ranked_scores subs sw cw pw).length = subs.length := by
  simp only [compute_ranked_scores, List.length_zipWith, minMaxNormalize_length,
    List.length_map, min_self]

lemma compute_ranked_scores_getD (subs : List Subcluster) (sw cw pw : ℚ) (i : ℕ)
    (h : i < subs.length) :
    (compute_ranked_scores subs sw cw pw).getD i default
      = { subs.getD i default with
            normalized_size := (minMaxNormalize (subs.map (fun s => s.size))).getD i 0,
            score := sw * (minMaxNormalize (subs.map (fun s => s.size))).getD i 0
              + cw * (subs.getD i default).cohesion
              + pw * (subs.getD i default).separation } := by
  have hni : i < (minMaxNormalize (subs.map (fun s => s.size))).length := by
    rw [minMaxNormalize_length, List.length_map]
    exact h
  have hzl : i < (compute_ranked_scores subs sw cw pw).length := by
    rw [compute_ranked_scores_length]
    exact h
  rw [List.getD_eq_getElem _ _ hzl, List.getD_eq_getElem _ _ h,
    List.getD_eq_getElem _ _ hni]
  simp only [compute_ranked_scores]
  rw [List.getElem_zipWith]

-- -------------------- Claim theorems --------------------

/-- C1: the accumulator record built by `generate_subclusters` does NOT hold
the centroid-ranked lists.  At a concrete two-member subcluster whose second
member is the one closest to the centroid, the stored summaries and
resolutions are in original row order, while the Centroid Ranker returns the
reversed order; the two disagree.  This contradicts the source's own comment
("Sort issue summary and resolutions per entry by similarity...") directly
above the call whose results are discarded. -/
theorem C1_stored_lists_not_centroid_ranked :
    (accumulatorRecord 0 0 [("A", some "ra"), ("B", some "rb")] 2 1 0).summaries
        = ["A", "B"] ∧
    (accumulatorRecord 0 0 [("A", some "ra"), ("B", some "rb")] 2 1 0).resolutions
        = ["ra", "rb"] ∧
    (get_top_entries_by_centroid [[(0:ℚ), 1], [1, 0]] [1, 0]
        [("A", some "ra"), ("B", some "rb")]).1 = ["B", "A"] ∧
    (get_top_entries_by_centroid [[(0:ℚ), 1], [1, 0]] [1, 0]
        [("A", some "ra"), ("B", some "rb")]).2 = ["rb", "ra"] ∧
    (accumulatorRecord 0 0 [("A", some "ra"), ("B", some "rb")] 2 1 0).summaries ≠
      (get_top_entries_by_centroid [[(0:ℚ), 1], [1, 0]] [1, 0]
        [("A", some "ra"), ("B", some "rb")]).1 := by
  refine ⟨rfl, rfl, ?_, ?_, ?_⟩
  · norm_num [get_top_entries_by_centroid, dot, argsortDesc, argsortAsc, simLe,
      List.insertionSort, List.orderedInsert, List.range_succ]
  · norm_num [get_top_entries_by_centroid, dot, argsortDesc, argsortAsc, simLe,
      List.insertionSort, List.orderedInsert, List.range_succ, List.filterMap_cons]
  · norm_num [get_top_entries_by_centroid, dot, argsortDesc, argsortAsc, simLe,
      List.insertionSort, List.orderedInsert, List.range_succ, accumulatorRecord]
    decide

/-- C2 (counterexample to the claim as stated): two members with equal
similarity to the centroid come out in REVERSED original index order, not in
preserved original order.  At this two-element array numpy's `argsort` runs
its insertion-sort path, so the model's trace is exact: the ascending argsort
keeps the tie as `[0, 1]` and the `[::-1]` reversal emits `[1, 0]`. -/
theorem C2_tie_order_counterexample :
    argsortDesc [(1:ℚ)/2, 1/2] = [1, 0] ∧
    (get_top_entries_by_centroid [[(1:ℚ), 0], [1, 0]] [1, 0]
      [("A", none), ("B", none)]).1 = ["B", "A"] := by
  constructor <;>
    norm_num [get_top_entries_by_centroid, dot, argsortDesc, argsortAsc, simLe,
      List.insertionSort, List.orderedInsert, List.range_succ]

/-- C2 (amended): the Centroid Ranker orders member indices by similarity to
the centroid in descending order (true of `argsort()[::-1]` under any correct
sort, stable or not), and the claim's example with the pairwise distinct
similarities `[0.9, 0.3, 0.6]` yields member order `[0, 2, 1]` (with distinct
values the index order is independent of tie handling, so the model's trace
is numpy's); but members with equal similarity are NOT guaranteed to keep
their original index order: at a concrete two-member tie — small enough that
numpy's insertion-sort path makes the trace exact — the ranker emits the
members in reversed original order.  numpy's default quicksort `argsort` is
documented unstable on larger arrays, so no universal tie order is asserted. -/
theorem C2_centroid_ranking :
    (∀ sims : List ℚ, (argsortDesc sims).Chain'
      (fun i j => sims.getD j 0 ≤ sims.getD i 0)) ∧
    argsortDesc [(9:ℚ)/10, 3/10, 6/10] = [0, 2, 1] ∧
    (get_top_entries_by_centroid [[(0:ℚ), 1], [0, 1]] [0, 1]
      [("A", none), ("B", none)]).1 = ["B", "A"] := by
  refine ⟨?_, ?_, ?_⟩
  · intro sims
    have hs : (argsortAsc sims).Pairwise (simLe sims) :=
      List.sorted_insertionSort (simLe sims) (List.range sims.length)
    have hp : (argsortDesc sims).Pairwise (fun i j => sims.getD j 0 ≤ sims.getD i 0) := by
      rw [argsortDesc, List.pairwise_reverse]
      exact hs
    exact hp.chain'
  · norm_num [argsortDesc, argsortAsc, simLe, List.insertionSort, List.orderedInsert,
      List.range_succ]
  · norm_num [get_top_entries_by_centroid, dot, argsortDesc, argsortAsc, simLe,
      List.insertionSort, List.orderedInsert, List.range_succ]

/-- Concrete accumulator used by witnesses: four subclusters of sizes
`0, 51, 52, 1000`, so min-max normalization sends the middle two to exactly
`51/1000 = MIN_SIZE + EPSILON` and to `52/1000` just above it. -/
def sampleSubs4 : List Subcluster :=
  [⟨0, 0, [], [], 0, 0, 0, 0, 0⟩, ⟨0, 1, [], [], 51, 0, 0, 0, 0⟩,
   ⟨0, 2, [], [], 52, 0, 0, 0, 0⟩, ⟨0, 3, [], [], 1000, 0, 0, 0, 0⟩]

/-- Concrete accumulator used by witnesses: every record has size 7, the
degenerate min-max case. -/
def sampleConstSubs : List Subcluster :=
  [⟨0, 0, [], [], 7, 0, 0, 0, 0⟩, ⟨0, 1, [], [], 7, 0, 0, 0, 0⟩]

/-- C4: the size filter of `select_top_subclusters` retains a scored record
exactly when its `normalized_size` lies strictly inside the open interval
from `MIN_SIZE + EPSILON` to `MAX_SIZE - EPSILON`; a record exactly at the
lower endpoint is excluded, and one any positive delta above it (below the
upper bound) is included. -/
theorem C4_size_filter (subs : List Subcluster) (s : Subcluster) :
    (s ∈ filteredSubclusters subs ↔
      s ∈ compute_ranked_scores subs (4/10) (12/10) (2/10) ∧
        MIN_SIZE + EPSILON < s.normalized_size ∧
        s.normalized_size < MAX_SIZE - EPSILON) ∧
    (s.normalized_size = MIN_SIZE + EPSILON → s ∉ filteredSubclusters subs) ∧
    (∀ δ : ℚ, 0 < δ → s.normalized_size = MIN_SIZE + EPSILON + δ →
      s.normalized_size < MAX_SIZE - EPSILON →
      s ∈ compute_ranked_scores subs (4/10) (12/10) (2/10) →
      s ∈ filteredSubclusters subs) := by
  have hmem : s ∈ filteredSubclusters subs ↔
      s ∈ compute_ranked_scores subs (4/10) (12/10) (2/10) ∧
        MIN_SIZE + EPSILON < s.normalized_size ∧
        s.normalized_size < MAX_SIZE - EPSILON := by
    rw [filteredSubclusters, List.mem_filter]
    constructor
    · rintro ⟨h1, h2⟩
      rw [sizeFilter, Bool.and_eq_true, decide_eq_true_eq, decide_eq_true_eq] at h2
      exact ⟨h1, h2⟩
    · rintro ⟨h1, h2, h3⟩
      refine ⟨h1, ?_⟩
      rw [sizeFilter, Bool.and_eq_true, decide_eq_true_eq, decide_eq_true_eq]
      exact ⟨h2, h3⟩
  refine ⟨hmem, ?_, ?_⟩
  · intro heq hmem2
    have hlt := (hmem.mp hmem2).2.1
    rw [heq] at hlt
    exact lt_irrefl _ hlt
  · intro δ hδ heq hlt hmem2
    refine hmem.mpr ⟨hmem2, ?_, hlt⟩
    rw [heq]
    linarith

/-- C4 witness: in the concrete accumulator `sampleSubs4` the record with
normalized size exactly `51/1000 = MIN_SIZE + EPSILON` is filtered out while
the record at `52/1000` survives. -/
theorem C4_size_filter_witness :
    (compute_ranked_scores sampleSubs4 (4/10) (12/10) (2/10)).getD 1 default ∉
        filteredSubclusters sampleSubs4 ∧
    (compute_ranked_scores sampleSubs4 (4/10) (12/10) (2/10)).getD 2 default ∈
        filteredSubclusters sampleSubs4 := by
  constructor
  · refine (C4_size_filter sampleSubs4 _).2.1 ?_
    norm_num [sampleSubs4, compute_ranked_scores, minMaxNormalize, listMin, listMax,
      MIN_SIZE, EPSILON, max_def, min_def]
  · refine (C4_size_filter sampleSubs4 _).2.2 (1/1000) (by norm_num) ?_ ?_ ?_
    · norm_num [sampleSubs4, compute_ranked_scores, minMaxNormalize, listMin, listMax,
        MIN_SIZE, EPSILON, max_def, min_def]
    · norm_num [sampleSubs4, compute_ranked_scores, minMaxNormalize, listMin, listMax,
        MAX_SIZE, EPSILON, max_def, min_def]
    · norm_num [sampleSubs4, compute_ranked_scores, minMaxNormalize, listMin, listMax,
        max_def, min_def]

/-- C5: after filtering, `select_top_subclusters` sorts survivors by
composite score descending with a stable sort (records of any fixed score
keep their accumulation order), returns the first `NUM_FAQs` records, and
when no more than `NUM_FAQs` survive it returns exactly the survivors
(never padding). -/
theorem C5_sort_and_truncate (subs : List Subcluster) :
    (select_top_subclusters subs).length
        = min NUM_FAQs (filteredSubclusters subs).length ∧
    (select_top_subclusters subs).Pairwise (fun a b => b.score ≤ a.score) ∧
    (∀ v : ℚ, (rankedSubclusters subs).filter (fun s => decide (s.score = v))
        = (filteredSubclusters subs).filter (fun s => decide (s.score = v))) ∧
    ((filteredSubclusters subs).length ≤ NUM_FAQs →
      (select_top_subclusters subs).Perm (filteredSubclusters subs)) := by
  refine ⟨?_, ?_, ?_, ?_⟩
  · rw [select_top_subclusters, List.length_take, rankedSubclusters,
      List.length_insertionSort]
  · have hs : (rankedSubclusters subs).Pairwise subGe :=
      List.sorted_insertionSort subGe (filteredSubclusters subs)
    exact hs.sublist (List.take_sublist _ _)
  · intro v
    exact filter_insertionSort subGe (fun s => decide (s.score = v)) _
      (fun a _ b _ hpa hpb => by
        rw [decide_eq_true_eq] at hpa hpb
        exact le_of_eq (hpb.trans hpa.symm))
  · intro hlen
    have htake : select_top_subclusters subs = rankedSubclusters subs := by
      rw [select_top_subclusters]
      refine List.take_of_length_le ?_
      rw [rankedSubclusters, List.length_insertionSort]
      exact hlen
    rw [htake, rankedSubclusters]
    exact List.perm_insertionSort subGe _

/-- C5 witness: with the four-record accumulator, fewer than `NUM_FAQs`
records survive, and the selection returns exactly the survivors. -/
theorem C5_sort_and_truncate_witness :
    (select_top_subclusters sampleSubs4).Perm (filteredSubclusters sampleSubs4) := by
  refine (C5_sort_and_truncate sampleSubs4).2.2.2 ?_
  refine le_trans (List.length_filter_le _ _) ?_
  simp [compute_ranked_scores, List.length_zipWith, minMaxNormalize, NUM_FAQs, sampleSubs4]

/-- C6: `compute_ranked_scores`, as invoked by `select_top_subclusters`,
gives every record the composite score
`0.4 * normalized_size + 1.2 * cohesion + 0.2 * separation`, where
`normalized_size` is the min-max normalization of `size` over the whole
accumulator and cohesion and separation enter raw. -/
theorem C6_composite_score (subs : List Subcluster) (i : ℕ) (h : i < subs.length) :
    ((compute_ranked_scores subs (4/10) (12/10) (2/10)).getD i default).score
        = (4/10) * ((compute_ranked_scores subs (4/10) (12/10) (2/10)).getD i
              default).normalized_size
          + (12/10) * (subs.getD i default).cohesion
          + (2/10) * (subs.getD i default).separation ∧
    (listMax (subs.map (fun s => s.size)) ≠ listMin (subs.map (fun s => s.size)) →
      ((compute_ranked_scores subs (4/10) (12/10) (2/10)).getD i
            default).normalized_size
        = ((subs.getD i default).size - listMin (subs.map (fun s => s.size)))
          / (listMax (subs.map (fun s => s.size))
              - listMin (subs.map (fun s => s.size)))) := by
  have hget := compute_ranked_scores_getD subs (4/10) (12/10) (2/10) i h
  have hni : i < (minMaxNormalize (subs.map (fun s => s.size))).length := by
    rw [minMaxNormalize_length, List.length_map]
    exact h
  have hmi : i < (subs.map (fun s => s.size)).length := by
    rw [List.length_map]
    exact h
  constructor
  · rw [hget]
  · intro hne
    rw [hget]
    show (minMaxNormalize (subs.map (fun s => s.size))).getD i 0 = _
    rw [List.getD_eq_getElem _ _ hni]
    simp only [minMaxNormalize]
    rw [List.getElem_map]
    simp only [if_neg hne]
    congr 1
    rw [List.getElem_map, List.getD_eq_getElem _ _ h]

/-- C6 witness: the score and normalized-size formulas evaluated on the
four-record accumulator at index 2. -/
theorem C6_composite_score_witness :
    ((compute_ranked_scores sampleSubs4 (4/10) (12/10) (2/10)).getD 2 default).score
        = (4/10) * ((compute_ranked_scores sampleSubs4 (4/10) (12/10) (2/10)).getD 2
              default).normalized_size
          + (12/10) * (sampleSubs4.getD 2 default).cohesion
          + (2/10) * (sampleSubs4.getD 2 default).separation ∧
    ((compute_ranked_scores sampleSubs4 (4/10) (12/10) (2/10)).getD 2
          default).normalized_size
        = ((sampleSubs4.getD 2 default).size - listMin (sampleSubs4.map (fun s => s.size)))
          / (listMax (sampleSubs4.map (fun s => s.size))
              - listMin (sampleSubs4.map (fun s => s.size))) :=
  ⟨(C6_composite_score sampleSubs4 2 (by norm_num [sampleSubs4])).1,
   (C6_composite_score sampleSubs4 2 (by norm_num [sampleSubs4])).2
     (by norm_num [sampleSubs4, listMin, listMax, max_def, min_def])⟩

/-- C10: when every record of a non-empty accumulator has the same size, the
min-max normalization is degenerate and `compute_ranked_scores` assigns
`normalized_size = 0` to every record; every record then fails the strict
lower bound of the size filter, and `select_top_subclusters` returns the
empty list. -/
theorem C10_degenerate_sizes (subs : List Subcluster) (c : ℚ) (hne : subs ≠ [])
    (hall : ∀ s ∈ subs, s.size = c) :
    (∀ s ∈ compute_ranked_scores subs (4/10) (12/10) (2/10), s.normalized_size = 0) ∧
    filteredSubclusters subs = [] ∧
    select_top_subclusters subs = [] := by
  have hsizes : ∀ v ∈ subs.map (fun s => s.size), v = c := by
    intro v hv
    rcases List.mem_map.mp hv with ⟨s, hs, rfl⟩
    exact hall s hs
  have hne' : subs.map (fun s => s.size) ≠ [] := by
    intro hmap
    exact hne (List.map_eq_nil_iff.mp hmap)
  have hmin : listMin (subs.map (fun s => s.size)) = c := listMin_const hne' hsizes
  have hmax : listMax (subs.map (fun s => s.size)) = c := listMax_const hne' hsizes
  have hns : ∀ v ∈ minMaxNormalize (subs.map (fun s => s.size)), v = 0 := by
    intro v hv
    rcases List.mem_map.mp hv with ⟨w, hw, rfl⟩
    rw [hmin, hmax, if_pos rfl, hsizes w hw, sub_self, div_one]
  have hzero : ∀ s ∈ compute_ranked_scores subs (4/10) (12/10) (2/10),
      s.normalized_size = 0 := by
    intro s hs
    rw [compute_ranked_scores] at hs
    rcases List.mem_iff_getElem.mp hs with ⟨i, hi, rfl⟩
    rw [List.getElem_zipWith]
    exact hns _ (List.getElem_mem _)
  have hfil : filteredSubclusters subs = [] := by
    rw [filteredSubclusters]
    refine List.filter_eq_nil_iff.mpr ?_
    intro s hs
    rw [sizeFilter, hzero s hs]
    norm_num [MIN_SIZE, MAX_SIZE, EPSILON]
  refine ⟨hzero, hfil, ?_⟩
  rw [select_top_subclusters, rankedSubclusters, hfil]
  rfl

/-- C10 witness: the degenerate selection evaluated on the two-record
constant-size accumulator. -/
theorem C10_degenerate_sizes_witness :
    select_top_subclusters sampleConstSubs = [] :=
  (C10_degenerate_sizes sampleConstSubs 7 (by simp [sampleConstSubs])
    (by simp [sampleConstSubs])).2.2

lemma length_filter_ne_range (n s : ℕ) (hs : s < n) :
    ((List.range n).filter (fun j => j ≠ s)).length = n - 1 := by
  induction n with
  | zero => exact absurd hs (Nat.not_lt_zero s)
  | succ m ih =>
    rw [List.range_succ, List.filter_append, List.length_append]
    rcases Nat.lt_succ_iff_lt_or_eq.mp hs with h | h
    · rw [ih h]
      have hms : m ≠ s := Nat.ne_of_gt h
      simp only [List.filter_cons, List.filter_nil]
      rw [if_pos (by simpa using hms)]
      simp only [List.length_cons, List.length_nil]
      omega
    · subst h
      have hfil : (List.range s).filter (fun j => j ≠ s) = List.range s := by
        rw [List.filter_eq_self]
        intro a ha
        simpa using Nat.ne_of_lt (List.mem_range.mp ha)
      rw [hfil, List.length_range]
      simp only [List.filter_cons, List.filter_nil]
      rw [if_neg (by simp)]
      simp

/-- Concrete parent group used for C7: a subcluster with one member aligned
with subcluster 1 (one member) and orthogonal to subcluster 2 (two members);
the per-sibling mean separation is 1/2 while the pooled mean would be 2/3. -/
def sepExample : List (List (List ℚ)) := [[[1, 0]], [[1, 0]], [[0, 1], [0, 1]]]

/-- C7: inside `generate_subclusters`, a subcluster's separation is the
arithmetic mean over its siblings, taken individually, of one minus the mean
cross cosine similarity against that sibling; with no siblings it is `0.0`;
and on a concrete unequal-sibling example this per-sibling mean differs from
the single pooled cross-group mean, so the two formulas do not coincide. -/
theorem C7_separation (embs : List (List (List ℚ))) (sub_id : ℕ) :
    (2 ≤ embs.length → sub_id < embs.length →
      subclusterSeparation embs sub_id
        = (((List.range embs.length).filter (fun j => j ≠ sub_id)).map
            (fun j => 1 - crossSimSum (embs.getD sub_id []) (embs.getD j [])
              / (((embs.getD sub_id []).length : ℚ)
                  * ((embs.getD j []).length : ℚ)))).sum
          / ((embs.length : ℚ) - 1)) ∧
    (embs.length = 1 → sub_id < embs.length → subclusterSeparation embs sub_id = 0) ∧
    (subclusterSeparation sepExample 0 = 1/2 ∧
      pooledSeparationSpec sepExample 0 = 2/3 ∧
      subclusterSeparation sepExample 0 ≠ pooledSeparationSpec sepExample 0) := by
  refine ⟨?_, ?_, ?_⟩
  · intro h2 hlt
    have hL : ((List.range embs.length).filter (fun j => j ≠ sub_id)).length
        = embs.length - 1 := length_filter_ne_range _ _ hlt
    simp only [subclusterSeparation]
    rw [if_neg (by rw [List.length_map, hL]; omega), npMean, List.length_map, hL,
      Nat.cast_sub (by omega), Nat.cast_one]
    simp only [compute_separation]
  · intro h1 hlt
    have h0 : sub_id = 0 := by omega
    subst h0
    simp [subclusterSeparation, h1]
  · refine ⟨?_, ?_, ?_⟩ <;>
      norm_num [sepExample, subclusterSeparation, pooledSeparationSpec,
        compute_separation, crossSimSum, npMean, dot, List.range_succ]

/-- C7 witness: the per-sibling formula applied to the concrete three-way
example, and the no-sibling convention applied to a single-subcluster group. -/
theorem C7_separation_witness :
    (subclusterSeparation sepExample 0
      = (((List.range sepExample.length).filter (fun j => j ≠ 0)).map
          (fun j => 1 - crossSimSum (sepExample.getD 0 []) (sepExample.getD j [])
            / (((sepExample.getD 0 []).length : ℚ)
                * ((sepExample.getD j []).length : ℚ)))).sum
        / ((sepExample.length : ℚ) - 1)) ∧
    subclusterSeparation [[[(1:ℚ), 0]]] 0 = 0 :=
  ⟨(C7_separation sepExample 0).1 (by norm_num [sepExample]) (by norm_num [sepExample]),
   (C7_separation [[[(1:ℚ), 0]]] 0).2.1 (by norm_num) (by norm_num)⟩

lemma list_map_sum_getD {β : Type} (l : List β) (d : β) (f : β → ℚ) :
    (l.map f).sum = ∑ i in Finset.range l.length, f (l.getD i d) := by
  induction l with
  | nil => simp
  | cons x t ih =>
    rw [List.map_cons, List.sum_cons, ih, List.length_cons, Finset.sum_range_succ']
    simp [add_comm]

lemma simMatrixSum_eq (vs : List (List ℚ)) :
    simMatrixSum vs = ∑ i in Finset.range vs.length, ∑ j in Finset.range vs.length,
      dot (vs.getD i []) (vs.getD j []) := by
  rw [simMatrixSum, crossSimSum, list_map_sum_getD vs []]
  exact Finset.sum_congr rfl (fun i _ => list_map_sum_getD vs [] _)

lemma simMatrixTrace_eq (vs : List (List ℚ)) :
    simMatrixTrace vs = ∑ i in Finset.range vs.length,
      dot (vs.getD i []) (vs.getD i []) := by
  rw [simMatrixTrace, list_map_sum_getD vs []]

/-- C8: a subcluster of at least two identical unit members has cohesion
exactly 1 (the source renormalizes, so any identical non-zero members become
identical unit members); and for every subcluster of at least two unit
members the cohesion always lies within the interval from -1 to 1. -/
theorem C8_cohesion :
    (∀ (n : ℕ) (v : List ℚ), 2 ≤ n → dot v v = 1 →
      compute_cohesion (List.replicate n v) = 1) ∧
    (∀ vs : List (List ℚ), 2 ≤ vs.length → (∀ v ∈ vs, dot v v = 1) →
      -1 ≤ compute_cohesion vs ∧ compute_cohesion vs ≤ 1) := by
  constructor
  · intro n v hn hv
    have hn0 : (n : ℚ) ≠ 0 := Nat.cast_ne_zero.mpr (by omega)
    have hn2 : (2 : ℚ) ≤ (n : ℚ) := by exact_mod_cast hn
    have hn1 : (n : ℚ) - 1 ≠ 0 := by intro hzero; linarith
    rw [compute_cohesion, simMatrixSum, crossSimSum, simMatrixTrace,
      List.length_replicate]
    simp only [List.map_replicate, List.sum_replicate, smul_eq_mul, hv, mul_one]
    rw [div_eq_one_iff_eq (mul_ne_zero hn0 hn1)]
    ring
  · intro vs h2 hunit
    have hmem : ∀ i, i < vs.length → dot (vs.getD i []) (vs.getD i []) = 1 := by
      intro i hi
      refine hunit _ ?_
      rw [List.getD_eq_getElem _ _ hi]
      exact List.getElem_mem _
    have habs1 : ∀ i j, i < vs.length → j < vs.length →
        |dot (vs.getD i []) (vs.getD j [])| ≤ 1 := by
      intro i j hi hj
      exact abs_dot_le_one (hmem i hi) (hmem j hj)
    have hn2 : (2 : ℚ) ≤ (vs.length : ℚ) := by exact_mod_cast h2
    have hD : 0 < (vs.length : ℚ) * ((vs.length : ℚ) - 1) := by
      have h0 : (0 : ℚ) < (vs.length : ℚ) := by linarith
      have h1 : (0 : ℚ) < (vs.length : ℚ) - 1 := by linarith
      exact mul_pos h0 h1
    have hsum : simMatrixSum vs - simMatrixTrace vs
        = ∑ i in Finset.range vs.length,
            ∑ j in (Finset.range vs.length).erase i,
              dot (vs.getD i []) (vs.getD j []) := by
      rw [simMatrixSum_eq, simMatrixTrace_eq, ← Finset.sum_sub_distrib]
      refine Finset.sum_congr rfl (fun i hi => ?_)
      rw [sub_eq_iff_eq_add]
      exact (Finset.sum_erase_add _ _ hi).symm
    have hbound : |simMatrixSum vs - simMatrixTrace vs|
        ≤ (vs.length : ℚ) * ((vs.length : ℚ) - 1) := by
      rw [hsum]
      refine le_trans (Finset.abs_sum_le_sum_abs _ _) ?_
      have hrow : ∀ i ∈ Finset.range vs.length,
          |∑ j in (Finset.range vs.length).erase i,
            dot (vs.getD i []) (vs.getD j [])| ≤ (vs.length : ℚ) - 1 := by
        intro i hi
        refine le_trans (Finset.abs_sum_le_sum_abs _ _) ?_
        have hterm : ∀ j ∈ (Finset.range vs.length).erase i,
            |dot (vs.getD i []) (vs.getD j [])| ≤ 1 := by
          intro j hj
          exact habs1 i j (Finset.mem_range.mp hi)
            (Finset.mem_range.mp (Finset.mem_of_mem_erase hj))
        refine le_trans (Finset.sum_le_sum hterm) ?_
        rw [Finset.sum_const, Finset.card_erase_of_mem hi, Finset.card_range,
          nsmul_eq_mul, mul_one, Nat.cast_sub (by omega), Nat.cast_one]
      refine le_trans (Finset.sum_le_sum hrow) ?_
      rw [Finset.sum_const, Finset.card_range, nsmul_eq_mul]
    rw [compute_cohesion]
    constructor
    · rw [le_div_iff₀ hD]
      have := (abs_le.mp hbound).1
      linarith
    · rw [div_le_one hD]
      exact (abs_le.mp hbound).2

/-- C8 witness: cohesion of two identical unit vectors is exactly 1, and the
cohesion of an orthogonal pair lies within the required interval. -/
theorem C8_cohesion_witness :
    compute_cohesion (List.replicate 2 [(1:ℚ), 0]) = 1 ∧
    (-1 ≤ compute_cohesion [[(1:ℚ), 0], [0, 1]] ∧
      compute_cohesion [[(1:ℚ), 0], [0, 1]] ≤ 1) :=
  ⟨C8_cohesion.1 2 [1, 0] (by norm_num) (by norm_num [dot]),
   C8_cohesion.2 [[(1:ℚ), 0], [0, 1]] (by norm_num)
     (by norm_num [dot, List.forall_mem_cons])⟩

lemma sum_filter_count (labels : List ℕ) (k : ℕ) (h : ∀ l ∈ labels, l < k) :
    (∑ s in Finset.range k, (labels.filter (fun l => l == s)).length)
      = labels.length := by
  induction labels with
  | nil => simp
  | cons a t ih =>
    have ha : a < k := h a (List.mem_cons_self _ _)
    have ht : ∀ l ∈ t, l < k := fun l hl => h l (List.mem_cons_of_mem _ hl)
    have hstep : ∀ s, ((a :: t).filter (fun l => l == s)).length
        = (if a = s then 1 else 0) + (t.filter (fun l => l == s)).length := by
      intro s
      rw [List.filter_cons]
      by_cases has : a = s
      · rw [if_pos (by simpa using has), if_pos has, List.length_cons]
        omega
      · rw [if_neg (by simpa using has), if_neg has]
        omega
    simp only [hstep]
    rw [Finset.sum_add_distrib, ih ht,
      Finset.sum_ite_eq (Finset.range k) a (fun _ => 1),
      if_pos (Finset.mem_range.mpr ha), List.length_cons]
    omega

/-- C9: when a parent group is partitioned into `k` subclusters, every member
carries exactly one label below `k` (the KMeans contract), and the subcluster
sizes computed by the first pass of `generate_subclusters` sum to the parent
group's member count. -/
theorem C9_partition_completeness (labels : List ℕ) (k : ℕ)
    (h : ∀ l ∈ labels, l < k) :
    (subclusterSizes labels k).sum = labels.length ∧
    (∀ i, i < labels.length → ∃! sub_id, sub_id < k ∧ labels.getD i 0 = sub_id) := by
  constructor
  · rw [subclusterSizes, list_range_map_sum]
    exact sum_filter_count labels k h
  · intro i hi
    refine ⟨labels.getD i 0, ⟨?_, rfl⟩, ?_⟩
    · refine h _ ?_
      rw [List.getD_eq_getElem _ _ hi]
      exact List.getElem_mem _
    · rintro y ⟨_, hval⟩
      exact hval.symm

/-- C9 witness: a 5-member group split 2 and 3 has subcluster sizes summing
to 5. -/
theorem C9_partition_completeness_witness :
    (subclusterSizes [0, 0, 1, 1, 1] 2).sum = ([0, 0, 1, 1, 1] : List ℕ).length :=
  (C9_partition_completeness [0, 0, 1, 1, 1] 2 (by decide)).1

/-- The rejection criterion of `compute_best_k` as a proposition: some label
class of the candidate partition has fewer than 5 members, or its largest
class holds more than 85 percent of the group. -/
def violates (labelsOf : ℕ → List ℕ) (total : ℕ) (k : ℕ) : Prop :=
  (∃ c ∈ countsOf (labelsOf k), c < 5) ∨
    (85 : ℚ) / 100 < (maxCount (countsOf (labelsOf k)) : ℚ) / (total : ℚ)

lemma violatesB_true_iff (labelsOf : ℕ → List ℕ) (total k : ℕ) :
    violatesB labelsOf total k = true ↔ violates labelsOf total k := by
  rw [violatesB, violates]
  simp [List.any_eq_true]

lemma violatesB_false_iff (labelsOf : ℕ → List ℕ) (total k : ℕ) :
    violatesB labelsOf total k = false ↔ ¬ violates labelsOf total k := by
  rw [← violatesB_true_iff labelsOf total k]
  cases h : violatesB labelsOf total k <;> simp

lemma mem_kCandidates {labelsOf : ℕ → List ℕ} {silhouette : ℕ → ℚ} {total : ℕ}
    {k : ℕ} {q : ℚ} :
    (k, q) ∈ kCandidates labelsOf silhouette total ↔
      k ∈ ([2, 3, 4] : List ℕ) ∧ ¬ violates labelsOf total k ∧
        q = silhouette k := by
  rw [kCandidates, List.mem_filterMap]
  constructor
  · rintro ⟨a, ha, hsome⟩
    by_cases hv : violatesB labelsOf total a
    · rw [if_pos hv] at hsome
      exact absurd hsome (by simp)
    · rw [if_neg hv] at hsome
      have hpair := Option.some_injective _ hsome
      have hk : a = k := congrArg Prod.fst hpair
      have hq : silhouette a = q := congrArg Prod.snd hpair
      subst hk
      exact ⟨ha, (violatesB_false_iff _ _ _).mp (Bool.eq_false_iff.mpr hv), hq.symm⟩
  · rintro ⟨hmem, hv, hq⟩
    refine ⟨k, hmem, ?_⟩
    rw [if_neg ?_, hq]
    rw [(violatesB_false_iff labelsOf total k).mpr hv]
    simp

/-- C3: `compute_best_k` never answers a `k` in `{2,3,4}` whose partition has
a class below 5 members or a dominant class above 85 percent; it answers the
sentinel 1 exactly when every candidate violates one of the two bounds; and a
non-sentinel answer is a surviving candidate of maximal silhouette score. -/
theorem C3_best_k (labelsOf : ℕ → List ℕ) (silhouette : ℕ → ℚ) (total : ℕ) :
    (compute_best_k labelsOf silhouette total = 1 ∨
      compute_best_k labelsOf silhouette total ∈ ([2, 3, 4] : List ℕ)) ∧
    (compute_best_k labelsOf silhouette total = 1 ↔
      ∀ k ∈ ([2, 3, 4] : List ℕ), violates labelsOf total k) ∧
    (compute_best_k labelsOf silhouette total ≠ 1 →
      ¬ violates labelsOf total (compute_best_k labelsOf silhouette total) ∧
        ∀ k ∈ ([2, 3, 4] : List ℕ), ¬ violates labelsOf total k →
          silhouette k ≤ silhouette (compute_best_k labelsOf silhouette total)) := by
  cases hsort : List.insertionSort scoreGe (kCandidates labelsOf silhouette total) with
  | nil =>
    have hcs : kCandidates labelsOf silhouette total = [] := by
      have hlen := List.length_insertionSort scoreGe
        (kCandidates labelsOf silhouette total)
      rw [hsort] at hlen
      exact List.eq_nil_of_length_eq_zero hlen.symm
    have hbk : compute_best_k labelsOf silhouette total = 1 := by
      rw [compute_best_k, hsort]
    have hall : ∀ k ∈ ([2, 3, 4] : List ℕ), violates labelsOf total k := by
      intro k hk
      by_contra hnv
      have : (k, silhouette k) ∈ kCandidates labelsOf silhouette total :=
        mem_kCandidates.mpr ⟨hk, hnv, rfl⟩
      rw [hcs] at this
      exact absurd this (List.not_mem_nil _)
    exact ⟨Or.inl hbk, ⟨fun _ => hall, fun _ => hbk⟩, fun hne => absurd hbk hne⟩
  | cons c rest =>
    have hbk : compute_best_k labelsOf silhouette total = c.1 := by
      rw [compute_best_k, hsort]
    have hcmem : c ∈ kCandidates labelsOf silhouette total := by
      have : c ∈ List.insertionSort scoreGe (kCandidates labelsOf silhouette total) := by
        rw [hsort]
        exact List.mem_cons_self _ _
      exact (List.mem_insertionSort scoreGe).mp this
    have hc := (@mem_kCandidates labelsOf silhouette total c.1 c.2).mp hcmem
    have hne1 : c.1 ≠ 1 := by
      have h1 := hc.1
      simp only [List.mem_cons, List.not_mem_nil, or_false] at h1
      rcases h1 with h | h | h <;> omega
    have hsorted : (c :: rest).Pairwise scoreGe := by
      rw [← hsort]
      exact List.sorted_insertionSort scoreGe _
    have hbest : ∀ k ∈ ([2, 3, 4] : List ℕ), ¬ violates labelsOf total k →
        silhouette k ≤ silhouette c.1 := by
      intro k hk hnv
      have hkc : (k, silhouette k) ∈ kCandidates labelsOf silhouette total :=
        mem_kCandidates.mpr ⟨hk, hnv, rfl⟩
      have hks : (k, silhouette k) ∈ c :: rest := by
        rw [← hsort]
        exact (List.mem_insertionSort scoreGe).mpr hkc
      rcases List.mem_cons.mp hks with heq | hrest
      · have hsnd : silhouette k = c.2 := congrArg Prod.snd heq
        rw [← hc.2.2, hsnd]
      · have hge : scoreGe c (k, silhouette k) :=
          (List.pairwise_cons.mp hsorted).1 _ hrest
        rw [← hc.2.2]
        exact hge
    rw [hbk]
    refine ⟨Or.inr hc.1, ⟨fun h1 => absurd h1 hne1, ?_⟩, fun _ => ⟨hc.2.1, hbest⟩⟩
    intro hall
    exact absurd (hall c.1 hc.1) hc.2.1

/-- Oracle labellings used by the C3 witness: for `k = 2` two balanced classes
of six, otherwise one dominant class of ten plus two singletons. -/
def labelsW : ℕ → List ℕ := fun k =>
  if k = 2 then [0, 0, 0, 0, 0, 0, 1, 1, 1, 1, 1, 1]
  else [0, 0, 0, 0, 0, 0, 0, 0, 0, 0, 1, 2]

/-- C3 witness: with twelve points, balanced labels for `k = 2`, and
degenerate labels for `k = 3, 4`, the selector returns a non-sentinel `k`
that satisfies both balance bounds. -/
theorem C3_best_k_witness :
    compute_best_k labelsW (fun _ => 1/2) 12 ∈ ([2, 3, 4] : List ℕ) ∧
    ¬ violates labelsW 12 (compute_best_k labelsW (fun _ => 1/2) 12) := by
  have hnv2 : ¬ violates labelsW 12 2 := by
    simp only [violates, not_or]
    constructor
    · decide
    · have hmc : maxCount (countsOf (labelsW 2)) = 6 := by decide
      rw [hmc]
      norm_num
  have hx := C3_best_k labelsW (fun _ => 1/2) 12
  have hne : compute_best_k labelsW (fun _ => 1/2) 12 ≠ 1 := by
    intro h1
    exact hnv2 (hx.2.1.mp h1 2 (by decide))
  refine ⟨?_, (hx.2.2 hne).1⟩
  rcases hx.1 with h | h
  · exact absurd h hne
  · exact h

end Faq
